import Mathlib

/-!
Verification development for the `weekend-tracer` ray tracer.

The Rust sources are shallowly embedded over the rationals: every `f64`
value is modelled as a `ℚ`, and the square-root function (whose exact
values are irrational in general) is passed in as an explicit parameter
`sq : ℚ → ℚ`.  Theorems that depend on genuine square-root behaviour
take pointwise or global hypotheses on `sq` that the real square root
satisfies on rational inputs; the executable instance `ratSqrt` below
satisfies all of them, so every such hypothesis is witnessed concretely.
Randomness (`rand::random` and the derived samplers) is modelled by an
explicit oracle argument supplying the drawn values.
-/

/-- 3-component vector, embedding `V3 = nalgebra::Vector3<f64>` from
`src/geometry.rs` with `ℚ` components. -/
structure V3 where
  x : ℚ
  y : ℚ
  z : ℚ
deriving DecidableEq

def V3.add (a b : V3) : V3 := ⟨a.x + b.x, a.y + b.y, a.z + b.z⟩

def V3.sub (a b : V3) : V3 := ⟨a.x - b.x, a.y - b.y, a.z - b.z⟩

def V3.neg (a : V3) : V3 := ⟨-a.x, -a.y, -a.z⟩

/-- Scalar multiplication `k * v`. -/
def V3.smul (k : ℚ) (a : V3) : V3 := ⟨k * a.x, k * a.y, k * a.z⟩

instance : Add V3 := ⟨V3.add⟩

instance : Sub V3 := ⟨V3.sub⟩

instance : Neg V3 := ⟨V3.neg⟩

instance : SMul ℚ V3 := ⟨V3.smul⟩

/-- Dot product (`Vector3::dot`). -/
def V3.dot (a b : V3) : ℚ := a.x * b.x + a.y * b.y + a.z * b.z

/-- `V3Length::length_squared` from `src/geometry.rs`: `self.dot(self)`. -/
def V3.lengthSquared (a : V3) : ℚ := a.dot a

/-- `near_zero` from `src/geometry.rs`: all components below `1e-8`. -/
def nearZero (v : V3) : Bool :=
  |v.x| < 1 / 100000000 && |v.y| < 1 / 100000000 && |v.z| < 1 / 100000000

/-- Largest `k ≤ b` with `k * k ≤ n` (structural linear scan, so that
the kernel can evaluate it on concrete inputs). -/
def natSqrtBelow (n : ℕ) : ℕ → ℕ
  | 0 => 0
  | b + 1 => if (b + 1) * (b + 1) ≤ n then b + 1 else natSqrtBelow n b

/-- Integer square root by exhaustive scan: `natSqrtL (k * k) = k`. -/
def natSqrtL (n : ℕ) : ℕ := natSqrtBelow n n

/-- Executable stand-in for the real square root on `ℚ`: exact on
rational squares (where `f64` sqrt is also exact), and an arbitrary
over-approximation of the square root elsewhere.  It satisfies all the
square-root hypotheses used by the theorems below. -/
def ratSqrt (q : ℚ) : ℚ :=
  if 0 ≤ q ∧ (natSqrtL q.num.toNat * natSqrtL q.num.toNat : ℤ) = q.num ∧
      natSqrtL q.den * natSqrtL q.den = q.den
  then (natSqrtL q.num.toNat : ℚ) / (natSqrtL q.den : ℚ)
  else max q 1

/-- `Ray` from `src/geometry.rs`. -/
structure Ray where
  orig : V3
  dir : V3
deriving DecidableEq

/-- `Ray::at`: `origin + t * direction`. -/
def Ray.at (r : Ray) (t : ℚ) : V3 := r.orig + t • r.dir

/-- `unit` from `src/geometry.rs`: `v / v.norm()` where
`norm = sqrt(length_squared)`.  Division by a scalar `s` is modelled as
multiplication by `1 / s` (with `1 / 0 = 0` in `ℚ`, matching the
convention used throughout this embedding for the degenerate case the
spec excludes). -/
def unitVec (sq : ℚ → ℚ) (v : V3) : V3 := (1 / sq v.lengthSquared) • v

/-- `reflect` from `src/geometry.rs`: `v - 2.0 * v.dot(n) * n`. -/
def reflect (v n : V3) : V3 := v - (2 * v.dot n) • n

/-- `refract` from `src/geometry.rs`, translated literally:
`cos_theta = -uv.dot(n).min(-1.)` (Rust method-call precedence: the
`min` applies to the dot product before the leading negation), and the
parallel component uses `.abs()` on the radicand before `.sqrt()`. -/
def refract (sq : ℚ → ℚ) (uv n : V3) (etaFrac : ℚ) : V3 :=
  let cosTheta := -(min (uv.dot n) (-1))
  let rOutPerp := etaFrac • (uv + cosTheta • n)
  let rOutPar := (-(sq |1 - rOutPerp.dot rOutPerp|)) • n
  rOutPerp + rOutPar

/-- `deg_to_rad` from `src/geometry.rs`, translated literally:
`(deg * PI / 2.) / 180.`.  The constant `PI` is abstracted as the
parameter `pi`. -/
def degToRad (pi deg : ℚ) : ℚ := deg * pi / 2 / 180

/-- The viewport half-height computed by `Camera::new` in
`src/camera.rs`: `h = tan(theta / 2)` with `theta = deg_to_rad(vfov)`.
The tangent is abstracted as the parameter `tanQ`. -/
def cameraHalfHeight (tanQ : ℚ → ℚ) (pi vfov : ℚ) : ℚ :=
  tanQ (degToRad pi vfov / 2)

/-- `Material` from `src/material.rs` as a closed variant type (the
three `impl Material` blocks in the repository). -/
inductive Material where
  | lambertian (albedo : V3)
  | metal (albedo : V3) (fuzz : ℚ)
  | dielectric (ir : ℚ)
deriving DecidableEq

/-- `HitRecord` from `src/hittable.rs`. -/
structure HitRecord where
  point : V3
  normal : V3
  material : Material
  t : ℚ
  frontFace : Bool
deriving DecidableEq

/-- `HitRecord::get_face_normal_from_ray` from `src/hittable.rs`. -/
def getFaceNormalFromRay (ray : Ray) (outwardNormal : V3) : V3 × Bool :=
  let frontFace : Bool := decide (ray.dir.dot outwardNormal < 0)
  (if frontFace then outwardNormal else -outwardNormal, frontFace)

/-- `HitRecord::new` from `src/hittable.rs`. -/
def HitRecord.new (ray : Ray) (outwardNormal : V3) (point : V3)
    (material : Material) (t : ℚ) : HitRecord :=
  let nf := getFaceNormalFromRay ray outwardNormal
  { point := point, normal := nf.1, material := material, t := t,
    frontFace := nf.2 }

/-- `Sphere` from `src/geometry.rs`. -/
structure Sphere where
  center : V3
  radius : ℚ
  material : Material
deriving DecidableEq

/-- `a` in `Sphere::hit`: `ray.direction().length_squared()`. -/
def sphereA (ray : Ray) : ℚ := ray.dir.lengthSquared

/-- `half_b` in `Sphere::hit`: `oc.dot(direction)` with
`oc = origin - center`. -/
def sphereHalfB (s : Sphere) (ray : Ray) : ℚ :=
  (ray.orig - s.center).dot ray.dir

/-- `c` in `Sphere::hit`: `oc.length_squared() - radius^2`. -/
def sphereC (s : Sphere) (ray : Ray) : ℚ :=
  (ray.orig - s.center).lengthSquared - s.radius * s.radius

/-- `discriminant` in `Sphere::hit`: `half_b^2 - a * c`. -/
def sphereDisc (s : Sphere) (ray : Ray) : ℚ :=
  sphereHalfB s ray * sphereHalfB s ray - sphereA ray * sphereC s ray

/-- First root candidate in `Sphere::hit`:
`(-half_b - discriminant.sqrt()) / a`. -/
def sphereRoot1 (sq : ℚ → ℚ) (s : Sphere) (ray : Ray) : ℚ :=
  (-sphereHalfB s ray - sq (sphereDisc s ray)) / sphereA ray

/-- Second root candidate in `Sphere::hit`:
`(-half_b + discriminant.sqrt()) / a`. -/
def sphereRoot2 (sq : ℚ → ℚ) (s : Sphere) (ray : Ray) : ℚ :=
  (-sphereHalfB s ray + sq (sphereDisc s ray)) / sphereA ray

/-- The `HitRecord` that `Sphere::hit` builds from an accepted root. -/
def sphereRec (s : Sphere) (ray : Ray) (root : ℚ) : HitRecord :=
  HitRecord.new ray ((1 / s.radius) • (ray.at root - s.center))
    (ray.at root) s.material root

/-- `Sphere::hit` from `src/geometry.rs`.  The upper bound is a
`WithTop ℚ` so that the `f64::INFINITY` bound used by `ray_color`
(`⊤` here) is represented faithfully; `⊤ < root` is false for every
root, exactly like `f64::INFINITY < root`. -/
def Sphere.hit (sq : ℚ → ℚ) (s : Sphere) (ray : Ray) (tMin : ℚ)
    (tMax : WithTop ℚ) : Option HitRecord :=
  if sphereDisc s ray < 0 then none
  else
    let root1 := sphereRoot1 sq s ray
    let root2 := sphereRoot2 sq s ray
    if root1 < tMin ∨ tMax < (root1 : WithTop ℚ) then
      if root2 < tMin ∨ tMax < (root2 : WithTop ℚ) then none
      else some (sphereRec s ray root2)
    else some (sphereRec s ray root1)

/-- The loop body state of `HittableList::hit` from `src/hittable.rs`:
`any_hit` and `closest_so_far`, threaded through the primitive list. -/
def listHitGo (sq : ℚ → ℚ) (ray : Ray) (tMin : ℚ) :
    List Sphere → Option HitRecord → WithTop ℚ → Option HitRecord
  | [], anyHit, _ => anyHit
  | s :: rest, anyHit, closest =>
    match Sphere.hit sq s ray tMin closest with
    | some rec => listHitGo sq ray tMin rest (some rec) (rec.t : WithTop ℚ)
    | none => listHitGo sq ray tMin rest anyHit closest

/-- `HittableList::hit` from `src/hittable.rs` over a list of spheres
(the only primitive in the repository). -/
def listHit (sq : ℚ → ℚ) (world : List Sphere) (ray : Ray) (tMin : ℚ)
    (tMax : WithTop ℚ) : Option HitRecord :=
  listHitGo sq ray tMin world none tMax

/-- `Dielectric::reflectance` from `src/material.rs` (Schlick). -/
def reflectance (cosine refIdx : ℚ) : ℚ :=
  let r0 := ((1 - refIdx) / (1 + refIdx)) ^ 2
  r0 + (1 - r0) * (1 - cosine) ^ 5

/-- The cosine computed by `Dielectric::scatter` in `src/material.rs`,
translated literally: `unit_dir.dot(&rec.normal).min(1.0)` — note that
the source applies no negation to the dot product. -/
def dielCosTheta (sq : ℚ → ℚ) (ray : Ray) (rec : HitRecord) : ℚ :=
  min ((unitVec sq ray.dir).dot rec.normal) 1

/-- `Material::scatter` from `src/material.rs` for the three material
kinds.  `rnd.1` models the vector drawn by `random_unit_vec()` /
`random_in_unit_sphere()` and `rnd.2` the uniform `random()` draw. -/
def scatter (sq : ℚ → ℚ) (rnd : V3 × ℚ) (mat : Material) (ray : Ray)
    (rec : HitRecord) : Option (V3 × Ray) :=
  match mat with
  | .lambertian albedo =>
    let scatterDir := rec.normal + rnd.1
    let scatterDir := if nearZero scatterDir then rec.normal else scatterDir
    some (albedo, ⟨rec.point, scatterDir⟩)
  | .metal albedo fuzz =>
    let reflected := reflect (unitVec sq ray.dir) rec.normal
    let scattered : Ray := ⟨rec.point, reflected + fuzz • rnd.1⟩
    if scattered.dir.dot rec.normal > 0 then some (albedo, scattered)
    else none
  | .dielectric ir =>
    let attenuation : V3 := ⟨1, 1, 1⟩
    let etaFrac := if rec.frontFace then 1 / ir else ir
    let unitDir := unitVec sq ray.dir
    let cosTheta := dielCosTheta sq ray rec
    let sinTheta := sq (1 - cosTheta * cosTheta)
    let cannotRefract := etaFrac * sinTheta > 1
    let shouldReflect := reflectance cosTheta etaFrac > rnd.2
    let direction :=
      if cannotRefract ∨ shouldReflect then reflect unitDir rec.normal
      else refract sq unitDir rec.normal etaFrac
    some (attenuation, ⟨rec.point, direction⟩)

/-- Componentwise colour product (`impl Mul for Color` in
`src/color.rs`), used for attenuation chaining in `ray_color`. -/
def cmul (a b : V3) : V3 := ⟨a.x * b.x, a.y * b.y, a.z * b.z⟩

/-- The random oracle: for each recursion depth, the vector drawn by
the samplers and the uniform scalar draw consumed by `scatter` at that
depth of `ray_color`. -/
def Oracle : Type := ℤ → V3 × ℚ

/-- `ray_color` from `src/main.rs`, made structurally recursive on an
explicit fuel argument.  The fuel is always `depth.toNat`, so the
`fuel = 0` case coincides exactly with the `depth <= 0` early
return, and each recursive call decrements both fuel and depth by one
(see `rayColor` and `rayColor_unfold`). -/
def rcFuel (sq : ℚ → ℚ) (world : List Sphere) (oracle : Oracle) :
    ℕ → ℤ → Ray → V3
  | 0, _, _ => ⟨0, 0, 0⟩
  | fuel + 1, depth, ray =>
    match listHit sq world ray (1 / 1000) ⊤ with
    | some rec =>
      match scatter sq (oracle depth) rec.material ray rec with
      | none => ⟨0, 0, 0⟩
      | some (att, scRay) =>
        cmul att (rcFuel sq world oracle fuel (depth - 1) scRay)
    | none =>
      let unitDir := unitVec sq ray.dir
      let t := (1 / 2) * (unitDir.y + 1)
      (1 - t) • (⟨1, 1, 1⟩ : V3) + t • (⟨1 / 2, 7 / 10, 1⟩ : V3)

/-- `ray_color(ray, world, depth)` from `src/main.rs` with its `i32`
depth argument. -/
def rayColor (sq : ℚ → ℚ) (world : List Sphere) (oracle : Oracle)
    (ray : Ray) (depth : ℤ) : V3 :=
  rcFuel sq world oracle depth.toNat depth ray

/-- Number of recursive `ray_color` calls actually performed, with the
same structure as `rcFuel`. -/
def bouncesFuel (sq : ℚ → ℚ) (world : List Sphere) (oracle : Oracle) :
    ℕ → ℤ → Ray → ℕ
  | 0, _, _ => 0
  | fuel + 1, depth, ray =>
    match listHit sq world ray (1 / 1000) ⊤ with
    | some rec =>
      match scatter sq (oracle depth) rec.material ray rec with
      | none => 0
      | some (_, scRay) =>
        1 + bouncesFuel sq world oracle fuel (depth - 1) scRay
    | none => 0

/-- Number of recursive calls made by `ray_color` at a given depth. -/
def rayBounces (sq : ℚ → ℚ) (world : List Sphere) (oracle : Oracle)
    (ray : Ray) (depth : ℤ) : ℕ :=
  bouncesFuel sq world oracle depth.toNat depth ray

/-- `Image` from `src/image.rs`: a width x height grid of colours,
modelled as dimensions plus a pixel function `pix i j` for the
`ndarray` cell `img[(i, j)]`. -/
structure ImageQ where
  width : ℕ
  height : ℕ
  pix : ℕ → ℕ → V3

/-- `merge_samples` from `src/image.rs`: fold the element-wise sums of
the input images starting from a black image, then scale every cell by
`ratio = 1 / images.len()`; the dimensions are read from `images[0]`
(`0` for the empty input, on which the source panics). -/
def mergeSamples (imgs : List ImageQ) : ImageQ :=
  { width := (imgs.head?.elim 0 fun im => im.width),
    height := (imgs.head?.elim 0 fun im => im.height),
    pix := fun i j =>
      (1 / (imgs.length : ℚ)) •
        (imgs.foldl (fun acc im => acc + im.pix i j) (⟨0, 0, 0⟩ : V3)) }

/-- Element-wise mean of a list of vectors, written independently of
`mergeSamples` (sum of each component divided by the count). -/
def vmean (l : List V3) : V3 :=
  ⟨((l.map V3.x).sum) / l.length, ((l.map V3.y).sum) / l.length,
    ((l.map V3.z).sum) / l.length⟩

/-- `f64::clamp(lo, hi)`: `min (max x lo) hi`. -/
def qclamp (x lo hi : ℚ) : ℚ := min (max x lo) hi

/-- One channel of `Color::ppm` from `src/color.rs`:
`(256.0 * c.sqrt().clamp(0.0, 0.999)) as u32` (the `as u32` cast
truncates the non-negative clamped value, i.e. takes the floor). -/
def ppmComp (sq : ℚ → ℚ) (v : ℚ) : ℕ :=
  (⌊(256 : ℚ) * qclamp (sq v) 0 (999 / 1000)⌋).toNat

/-- `Color::ppm` from `src/color.rs`: the three space-separated
integers of one output row, modelled as a triple. -/
def ppmTriple (sq : ℚ → ℚ) (c : V3) : ℕ × ℕ × ℕ :=
  (ppmComp sq c.x, ppmComp sq c.y, ppmComp sq c.z)

/-- `Image::to_ppm_list` from `src/image.rs`: one row per pixel, for
`j` in `(0..height).rev()` and, inside each `j`, `i` ascending. -/
def toPpmList (sq : ℚ → ℚ) (im : ImageQ) : List (ℕ × ℕ × ℕ) :=
  ((List.range im.height).reverse).flatMap fun j =>
    (List.range im.width).map fun i => ppmTriple sq (im.pix i j)

/-- Mirror of the claim C1 description of `Sphere::hit`, written from the
spec wording: the smaller root is evaluated first and accepted only if
it lies in the half-open interval `(tMin, tMax]`, else the larger root
under the same bound, else no hit. -/
def sphereHitSpecHalfOpen (sq : ℚ → ℚ) (s : Sphere) (ray : Ray)
    (tMin tMax : ℚ) : Option HitRecord :=
  if sphereDisc s ray < 0 then none
  else
    let root1 := sphereRoot1 sq s ray
    let root2 := sphereRoot2 sq s ray
    if tMin < root1 ∧ root1 ≤ tMax then some (sphereRec s ray root1)
    else if tMin < root2 ∧ root2 ≤ tMax then some (sphereRec s ray root2)
    else none

/-- The amended form of claim C1: identical, except that a root is
accepted when it lies in the closed interval `[tMin, tMax]`. -/
def sphereHitSpecClosed (sq : ℚ → ℚ) (s : Sphere) (ray : Ray)
    (tMin tMax : ℚ) : Option HitRecord :=
  if sphereDisc s ray < 0 then none
  else
    let root1 := sphereRoot1 sq s ray
    let root2 := sphereRoot2 sq s ray
    if tMin ≤ root1 ∧ root1 ≤ tMax then some (sphereRec s ray root1)
    else if tMin ≤ root2 ∧ root2 ≤ tMax then some (sphereRec s ray root2)
    else none

/-- Mirror of the claim C5 description of `refract`, written from the
spec wording: `cosθ = min(1, -uv·n)`, the perpendicular component is
`etaRatio * (uv + cosθ * n)`, and the radicand of the parallel
component is clamped to `≥ 0` before the square root. -/
def refractSpec (sq : ℚ → ℚ) (uv n : V3) (etaFrac : ℚ) : V3 :=
  let cosTheta := min 1 (-(uv.dot n))
  let rOutPerp := etaFrac • (uv + cosTheta • n)
  let rOutPar := (-(sq (max (1 - rOutPerp.dot rOutPerp) 0))) • n
  rOutPerp + rOutPar

/-- The claim C7 hypothesis on a material, exactly as stated: Lambertian
or Metal albedo components are all `≤ 1` (no lower bound), any
Dielectric allowed. -/
def albedoLe1 : Material → Prop
  | .lambertian a => a.x ≤ 1 ∧ a.y ≤ 1 ∧ a.z ≤ 1
  | .metal a _ => a.x ≤ 1 ∧ a.y ≤ 1 ∧ a.z ≤ 1
  | .dielectric _ => True

/-- The amended hypothesis for claim C7: albedo components lie in
`[0, 1]` (the non-negativity from the colour data model made explicit). -/
def albedoIn01 : Material → Prop
  | .lambertian a => 0 ≤ a.x ∧ a.x ≤ 1 ∧ 0 ≤ a.y ∧ a.y ≤ 1 ∧ 0 ≤ a.z ∧ a.z ≤ 1
  | .metal a _ => 0 ≤ a.x ∧ a.x ≤ 1 ∧ 0 ≤ a.y ∧ a.y ≤ 1 ∧ 0 ≤ a.z ∧ a.z ≤ 1
  | .dielectric _ => True

instance : DecidablePred albedoLe1 := fun m => by
  cases m <;> (dsimp [albedoLe1]; infer_instance)

instance : DecidablePred albedoIn01 := fun m => by
  cases m <;> (dsimp [albedoIn01]; infer_instance)

/-- Claim C1 as stated: for all bounds `tMin ≤ tMax`, a nondegenerate
ray direction, and a square-root argument that is genuine at the
discriminant, `Sphere::hit` behaves as the half-open-interval
description says. -/
def claimC1 : Prop :=
  ∀ (sq : ℚ → ℚ) (s : Sphere) (ray : Ray) (tMin tMax : ℚ),
    0 < sphereA ray →
    (0 ≤ sphereDisc s ray →
      0 ≤ sq (sphereDisc s ray) ∧
        sq (sphereDisc s ray) * sq (sphereDisc s ray) = sphereDisc s ray) →
    tMin ≤ tMax →
    Sphere.hit sq s ray tMin (tMax : WithTop ℚ) =
      sphereHitSpecHalfOpen sq s ray tMin tMax

/-- Claim C5 as stated: for every non-negative square root function
that is exact on squares, unit-length `uv` and `n`, and any ratio,
`refract` equals the spec decomposition `refractSpec`. -/
def claimC5 : Prop :=
  ∀ sq : ℚ → ℚ, (∀ x, 0 ≤ sq x) → (∀ y, 0 ≤ y → sq (y * y) = y) →
    ∀ (uv n : V3) (etaFrac : ℚ), uv.lengthSquared = 1 →
      n.lengthSquared = 1 →
      refract sq uv n etaFrac = refractSpec sq uv n etaFrac

/-- Claim C7 as stated: with a square-root function bounded below by
every rational whose square is below the argument (true of the real
square root), a world whose Lambertian and Metal albedos have
components `≤ 1`, every ray, depth and random outcome give a colour
with all components `≤ 1`. -/
def claimC7 : Prop :=
  ∀ sq : ℚ → ℚ, (∀ x, 0 ≤ sq x) → (∀ x y, y * y ≤ x → y ≤ sq x) →
    ∀ world : List Sphere, (∀ s ∈ world, albedoLe1 s.material) →
      ∀ (oracle : Oracle) (ray : Ray) (depth : ℤ),
        (rayColor sq world oracle ray depth).x ≤ 1 ∧
          (rayColor sq world oracle ray depth).y ≤ 1 ∧
          (rayColor sq world oracle ray depth).z ≤ 1

/-- The single acceptance candidate of `Sphere::hit` before the upper
bound is applied: the first of `root1`, `root2` that is `≥ tMin` (and
no candidate when the discriminant is negative or both roots fall below
`tMin`). -/
def sphereThreshold (sq : ℚ → ℚ) (s : Sphere) (ray : Ray) (tMin : ℚ) :
    Option ℚ :=
  if sphereDisc s ray < 0 then none
  else if tMin ≤ sphereRoot1 sq s ray then some (sphereRoot1 sq s ray)
  else if tMin ≤ sphereRoot2 sq s ray then some (sphereRoot2 sq s ray)
  else none

/-- `sphereThreshold` embedded in `WithTop ℚ` (no candidate maps to
`⊤`). -/
def thrW (sq : ℚ → ℚ) (ray : Ray) (tMin : ℚ) (s : Sphere) : WithTop ℚ :=
  match sphereThreshold sq s ray tMin with
  | some v => (v : WithTop ℚ)
  | none => ⊤

/-- The final `closest_so_far` value of the `HittableList::hit` loop:
the minimum of the initial bound and the candidate of every sphere. -/
def closestFold (sq : ℚ → ℚ) (ray : Ray) (tMin : ℚ) (l : List Sphere)
    (c : WithTop ℚ) : WithTop ℚ :=
  (l.map (thrW sq ray tMin)).foldl min c

theorem V3.dot_comm (a b : V3) : a.dot b = b.dot a := by
  unfold V3.dot; ring

theorem V3.neg_dot (a b : V3) : (-a).dot b = -(a.dot b) := by
  show (V3.neg a).dot b = -(a.dot b)
  unfold V3.neg V3.dot; ring

theorem natSqrtBelow_exact (k : ℕ) : ∀ b, k ≤ b → natSqrtBelow (k * k) b = k := by
  intro b
  induction b with
  | zero => intro h; interval_cases k; rfl
  | succ n ih =>
    intro h
    unfold natSqrtBelow
    rcases Nat.lt_or_ge k (n + 1) with hk | hk
    · rw [if_neg]
      · exact ih (by omega)
      · push_neg
        exact Nat.mul_lt_mul_of_lt_of_le hk (by omega) (by omega)
    · have hk2 : k = n + 1 := by omega
      subst hk2
      rw [if_pos (le_refl _)]

theorem natSqrtL_exact (k : ℕ) : natSqrtL (k * k) = k := by
  unfold natSqrtL
  refine natSqrtBelow_exact k (k * k) ?_
  rcases Nat.eq_zero_or_pos k with h | h
  · omega
  · exact Nat.le_mul_of_pos_left k h

theorem ratSqrt_nonneg (x : ℚ) : 0 ≤ ratSqrt x := by
  unfold ratSqrt; split
  · positivity
  · exact le_trans zero_le_one (le_max_right x 1)

theorem ratSqrt_sq_of_branch (x : ℚ) (h : 0 ≤ x ∧
    (natSqrtL x.num.toNat * natSqrtL x.num.toNat : ℤ) = x.num ∧
      natSqrtL x.den * natSqrtL x.den = x.den) :
    ((natSqrtL x.num.toNat : ℚ) / (natSqrtL x.den : ℚ)) *
      ((natSqrtL x.num.toNat : ℚ) / (natSqrtL x.den : ℚ)) = x := by
  obtain ⟨-, hn, hd⟩ := h
  rw [div_mul_div_comm]
  have h1 : (natSqrtL x.num.toNat : ℚ) * (natSqrtL x.num.toNat : ℚ) =
      ((x.num : ℤ) : ℚ) := by exact_mod_cast congrArg (fun z : ℤ => (z : ℚ)) hn
  have h2 : (natSqrtL x.den : ℚ) * (natSqrtL x.den : ℚ) = (x.den : ℚ) := by
    exact_mod_cast congrArg (fun n : ℕ => (n : ℚ)) hd
  rw [h1, h2, Rat.num_div_den]

theorem ratSqrt_exact (y : ℚ) (hy : 0 ≤ y) : ratSqrt (y * y) = y := by
  have hnum : (y * y).num = y.num * y.num := Rat.mul_self_num y
  have hden : (y * y).den = y.den * y.den := Rat.mul_self_den y
  have hy0 : (0 : ℤ) ≤ y.num := Rat.num_nonneg.mpr hy
  have hc : ((y.num.toNat : ℤ)) = y.num := Int.toNat_of_nonneg hy0
  have hton : (y * y).num.toNat = y.num.toNat * y.num.toNat := by
    rw [hnum,
      show y.num * y.num = ((y.num.toNat * y.num.toNat : ℕ) : ℤ) by
        push_cast [hc]; ring]
    exact Int.toNat_natCast _
  have hn : natSqrtL (y * y).num.toNat = y.num.toNat := by
    rw [hton, natSqrtL_exact]
  have hd : natSqrtL (y * y).den = y.den := by
    rw [hden, natSqrtL_exact]
  unfold ratSqrt
  rw [if_pos]
  · rw [hn, hd]
    have h3 : ((y.num.toNat : ℕ) : ℚ) = (y.num : ℚ) := by
      exact_mod_cast congrArg (fun z : ℤ => (z : ℚ)) hc
    rw [h3, Rat.num_div_den]
  · refine ⟨mul_self_nonneg y, ?_, ?_⟩
    · rw [hn, hnum, hc]
    · rw [hd, hden]

theorem ratSqrt_le (x y : ℚ) (h : y * y ≤ x) : y ≤ ratSqrt x := by
  unfold ratSqrt; split
  · rename_i hb
    have hr := ratSqrt_sq_of_branch x hb
    set r := (natSqrtL x.num.toNat : ℚ) / (natSqrtL x.den : ℚ) with hrdef
    have hr0 : 0 ≤ r := by positivity
    nlinarith
  · rcases le_or_lt y 1 with h1 | h1
    · exact le_trans h1 (le_max_right x 1)
    · have h2 : y ≤ y * y := by nlinarith
      exact le_trans (le_trans h2 h) (le_max_left x 1)

/-- C2: every `HitRecord` built by `HitRecord::new` stores a normal
with `normal · ray.direction ≤ 0`, and its `front_face` flag is true
exactly when `ray.direction · outward_normal < 0`. -/
theorem c2_normal_opposes_ray (ray : Ray) (outwardNormal point : V3)
    (mat : Material) (t : ℚ) :
    (HitRecord.new ray outwardNormal point mat t).normal.dot ray.dir ≤ 0 ∧
      ((HitRecord.new ray outwardNormal point mat t).frontFace = true ↔
        ray.dir.dot outwardNormal < 0) := by
  unfold HitRecord.new getFaceNormalFromRay
  by_cases h : ray.dir.dot outwardNormal < 0
  · rw [decide_eq_true h]
    constructor
    · simp only [if_true]
      rw [V3.dot_comm]
      linarith
    · simp [h]
  · rw [decide_eq_false h]
    constructor
    · simp only [Bool.false_eq_true, if_false]
      rw [V3.neg_dot, V3.dot_comm]
      linarith [not_lt.mp h]
    · simp [h]

/-- C4: `deg_to_rad` divides by an extra factor of two — it maps `d`
to `d * pi / 360`, so `deg_to_rad 180 = pi / 2` instead of `pi`, and
the camera half-height is `tan(vfov * pi / 720)` instead of
`tan(vfov * pi / 360)`. -/
theorem c4_degToRad_halved (pi vfov : ℚ) (tanQ : ℚ → ℚ) :
    degToRad pi 180 = pi / 2 ∧ degToRad pi vfov = vfov * pi / 360 ∧
      cameraHalfHeight tanQ pi vfov = tanQ (vfov * pi / 720) := by
  refine ⟨?_, ?_, ?_⟩
  · unfold degToRad; ring
  · unfold degToRad; ring
  · unfold cameraHalfHeight degToRad
    congr 1
    ring

/-- C3: at a head-on front-face dielectric hit the cosine computed by
`Dielectric::scatter` is `-1` (the source omits the negation of the
dot product), while the spec formula `min(1, -unitIncoming·normal)` is `1`;
with refractive index `1.5` and uniform draw `1/2` the scatter
consequently reflects (Schlick with a negative cosine exceeds every
uniform draw) instead of refracting straight through. -/
theorem c3_dielectric_cosine_bug :
    dielCosTheta ratSqrt ⟨⟨0, 0, 0⟩, ⟨1, 0, 0⟩⟩
        ⟨⟨1, 0, 0⟩, ⟨-1, 0, 0⟩, .dielectric (3 / 2), 1, true⟩ = -1 ∧
      min 1 (-((unitVec ratSqrt (⟨1, 0, 0⟩ : V3)).dot ⟨-1, 0, 0⟩)) = 1 ∧
      scatter ratSqrt (⟨⟨0, 0, 0⟩, 1 / 2⟩ : V3 × ℚ) (.dielectric (3 / 2))
          ⟨⟨0, 0, 0⟩, ⟨1, 0, 0⟩⟩
          ⟨⟨1, 0, 0⟩, ⟨-1, 0, 0⟩, .dielectric (3 / 2), 1, true⟩ =
        some (⟨1, 1, 1⟩, ⟨⟨1, 0, 0⟩, ⟨-1, 0, 0⟩⟩) := by
  refine ⟨?_, ?_, ?_⟩ <;> with_unfolding_all decide

theorem V3.ext_of (a b : V3) (hx : a.x = b.x) (hy : a.y = b.y)
    (hz : a.z = b.z) : a = b := by
  cases a; cases b; simp_all

theorem V3.add_def (a b : V3) : a + b = ⟨a.x + b.x, a.y + b.y, a.z + b.z⟩ :=
  rfl

theorem V3.sub_def (a b : V3) : a - b = ⟨a.x - b.x, a.y - b.y, a.z - b.z⟩ :=
  rfl

theorem V3.neg_def (a : V3) : -a = ⟨-a.x, -a.y, -a.z⟩ := rfl

theorem V3.smul_def (k : ℚ) (a : V3) : k • a = ⟨k * a.x, k * a.y, k * a.z⟩ :=
  rfl

theorem bouncesFuel_le (sq : ℚ → ℚ) (world : List Sphere) (oracle : Oracle) :
    ∀ (fuel : ℕ) (depth : ℤ) (ray : Ray),
      bouncesFuel sq world oracle fuel depth ray ≤ fuel := by
  intro fuel
  induction fuel with
  | zero => intro depth ray; simp [bouncesFuel]
  | succ n ih =>
    intro depth ray
    unfold bouncesFuel
    rcases h1 : listHit sq world ray (1 / 1000) ⊤ with _ | rec
    · simp
    · dsimp only
      rcases h2 : scatter sq (oracle depth) rec.material ray rec with _ | pair
      · simp
      · obtain ⟨att, scRay⟩ := pair
        dsimp only
        have := ih (depth - 1) scRay
        omega

/-- C6: `ray_color` returns black for every `depth ≤ 0` regardless of
scene content, and the recursion is depth-bounded: the depth argument
decreases by one on each recursive call, so at most `depth.toNat`
(hence at most `maxDepth` for a start at `maxDepth ≥ 0`) recursive
calls are made, and evaluation of the embedding (structurally
recursive on that bound) terminates. -/
theorem c6_depth_cutoff_and_termination (sq : ℚ → ℚ) (world : List Sphere)
    (oracle : Oracle) (ray : Ray) (depth : ℤ) :
    (depth ≤ 0 → rayColor sq world oracle ray depth = ⟨0, 0, 0⟩) ∧
      rayBounces sq world oracle ray depth ≤ depth.toNat := by
  constructor
  · intro h
    unfold rayColor
    have h0 : depth.toNat = 0 := by omega
    rw [h0]
    rfl
  · exact bouncesFuel_le sq world oracle depth.toNat depth ray

theorem c6_witness :
    rayColor ratSqrt [] (fun _ => (⟨0, 0, 0⟩, 0)) ⟨⟨0, 0, 0⟩, ⟨1, 0, 0⟩⟩ 0 =
        ⟨0, 0, 0⟩ ∧
      rayBounces ratSqrt [] (fun _ => (⟨0, 0, 0⟩, 0)) ⟨⟨0, 0, 0⟩, ⟨1, 0, 0⟩⟩ 0 ≤
        (0 : ℤ).toNat :=
  ⟨(c6_depth_cutoff_and_termination ratSqrt [] (fun _ => (⟨0, 0, 0⟩, 0))
      ⟨⟨0, 0, 0⟩, ⟨1, 0, 0⟩⟩ 0).1 (le_refl 0),
    (c6_depth_cutoff_and_termination ratSqrt [] (fun _ => (⟨0, 0, 0⟩, 0))
      ⟨⟨0, 0, 0⟩, ⟨1, 0, 0⟩⟩ 0).2⟩

/-- C5 (counterexample): the claimed description of `refract` fails on
the code.  At the unit vectors `uv = (3/5, -4/5, 0)`, `n = (0, 1, 0)`
and ratio `5` — with a square-root function that is non-negative and
exact on squares, and whose two applications here (`sq 0` and `sq 9`)
agree with the real square root — the code returns `(3, -2, 0)` while
the claimed decomposition gives `(3, 0, 0)`: the code cosine is
`-min(uv·n, -1) = 1`, not `min(1, -uv·n) = 4/5`, and its radicand
passes through `abs`, not a clamp to `≥ 0`. -/
theorem c5_counterexample : ¬ claimC5 := by
  intro h
  have h2 := h ratSqrt ratSqrt_nonneg ratSqrt_exact ⟨3 / 5, -4 / 5, 0⟩
    ⟨0, 1, 0⟩ 5 (by with_unfolding_all decide) (by with_unfolding_all decide)
  have h3 : refract ratSqrt ⟨3 / 5, -4 / 5, 0⟩ ⟨0, 1, 0⟩ 5 ≠
      refractSpec ratSqrt ⟨3 / 5, -4 / 5, 0⟩ ⟨0, 1, 0⟩ 5 := by
    with_unfolding_all decide
  exact h3 h2

/-- C5 (amended): `refract` decomposes its result into
`etaRatio * (uv + cosθ * n)` plus `-sqrt(|1 - |perp|²|) * n`, where —
unlike the claim — `cosθ = -min(uv·n, -1)` (by Rust method-call
precedence this is `max(-uv·n, 1)`, always `≥ 1`) and the radicand is
passed through the absolute value rather than clamped to `≥ 0`; the
two descriptions coincide exactly in the head-on case `uv·n = -1`
with non-negative radicand. -/
theorem c5_refract_amended (sq : ℚ → ℚ) (uv n : V3) (etaFrac : ℚ) :
    refract sq uv n etaFrac =
        etaFrac • (uv + (-(min (uv.dot n) (-1))) • n) +
          (-(sq |1 - (etaFrac • (uv + (-(min (uv.dot n) (-1))) • n)).dot
              (etaFrac • (uv + (-(min (uv.dot n) (-1))) • n))|)) • n ∧
      1 ≤ -(min (uv.dot n) (-1)) ∧
      (uv.dot n = -1 →
        0 ≤ 1 - (etaFrac • (uv + (1 : ℚ) • n)).dot
            (etaFrac • (uv + (1 : ℚ) • n)) →
        refract sq uv n etaFrac = refractSpec sq uv n etaFrac) := by
  refine ⟨rfl, ?_, ?_⟩
  · have h := min_le_right (uv.dot n) (-1)
    linarith
  · intro hd hr
    have hcos : -(min (uv.dot n) (-1)) = 1 := by rw [hd]; norm_num
    have hcos2 : min 1 (-(uv.dot n)) = 1 := by rw [hd]; norm_num
    simp only [refract, refractSpec, hcos, hcos2]
    rw [abs_of_nonneg hr, max_eq_left hr]

theorem sphereRec_t (s : Sphere) (ray : Ray) (root : ℚ) :
    (sphereRec s ray root).t = root := rfl

theorem sphereRec_point (s : Sphere) (ray : Ray) (root : ℚ) :
    (sphereRec s ray root).point = ray.at root := rfl

theorem sphereRec_material (s : Sphere) (ray : Ray) (root : ℚ) :
    (sphereRec s ray root).material = s.material := rfl

/-- C1 (counterexample): `Sphere::hit` accepts a root equal to `tMin`,
so the claimed half-open acceptance interval `(tMin, tMax]` is wrong.
For the unit sphere at the origin and the ray from `(-2,0,0)` along
`(1,0,0)` with `tMin = 1`, `tMax = 100`, the roots are `1` and `3`:
the code accepts `t = 1` (closed interval) while the claimed
description rejects it and returns the hit at `t = 3`. -/
theorem c1_counterexample : ¬ claimC1 := by
  intro h
  have h2 := h (fun x => if x = 1 then 1 else max x 1)
    ⟨⟨0, 0, 0⟩, 1, .lambertian ⟨0, 0, 0⟩⟩ ⟨⟨-2, 0, 0⟩, ⟨1, 0, 0⟩⟩ 1 100
    (by with_unfolding_all decide) (by with_unfolding_all decide)
    (by norm_num)
  have h3 : Sphere.hit (fun x => if x = 1 then 1 else max x 1)
      ⟨⟨0, 0, 0⟩, 1, .lambertian ⟨0, 0, 0⟩⟩ ⟨⟨-2, 0, 0⟩, ⟨1, 0, 0⟩⟩ 1
        ((100 : ℚ) : WithTop ℚ) ≠
      sphereHitSpecHalfOpen (fun x => if x = 1 then 1 else max x 1)
        ⟨⟨0, 0, 0⟩, 1, .lambertian ⟨0, 0, 0⟩⟩ ⟨⟨-2, 0, 0⟩, ⟨1, 0, 0⟩⟩ 1 100 := by
    with_unfolding_all decide
  exact h3 h2

theorem sphereQuadEval (sq : ℚ → ℚ) (s : Sphere) (ray : Ray)
    (hsq : sq (sphereDisc s ray) * sq (sphereDisc s ray) = sphereDisc s ray)
    (ha : sphereA ray ≠ 0) :
    sphereA ray * (sphereRoot1 sq s ray * sphereRoot1 sq s ray) +
        2 * sphereHalfB s ray * sphereRoot1 sq s ray + sphereC s ray = 0 ∧
      sphereA ray * (sphereRoot2 sq s ray * sphereRoot2 sq s ray) +
        2 * sphereHalfB s ray * sphereRoot2 sq s ray + sphereC s ray = 0 := by
  have hdisc : sphereDisc s ray =
      sphereHalfB s ray * sphereHalfB s ray - sphereA ray * sphereC s ray :=
    rfl
  nth_rewrite 3 [hdisc] at hsq
  constructor
  · unfold sphereRoot1
    field_simp
    linear_combination (sphereA ray * sphereA ray) * hsq
  · unfold sphereRoot2
    field_simp
    linear_combination (sphereA ray * sphereA ray) * hsq

/-- C1 (amended): `Sphere::hit` behaves exactly as the claim describes
except that a root is accepted when it lies in the closed interval
`[tMin, tMax]` (`tMin ≤ root` and `root ≤ tMax`), not the half-open
one; under the genuine square-root hypotheses the two candidates are
ordered (the first really is the smaller root), the accepted root
solves `a·t² + 2·half_b·t + c = 0`, lies in the closed interval, and
the hit point is `ray.at(t)`. -/
theorem c1_sphere_hit_amended (sq : ℚ → ℚ) (s : Sphere) (ray : Ray)
    (tMin tMax : ℚ) :
    Sphere.hit sq s ray tMin (tMax : WithTop ℚ) =
        sphereHitSpecClosed sq s ray tMin tMax ∧
      (0 < sphereA ray → 0 ≤ sq (sphereDisc s ray) →
        sphereRoot1 sq s ray ≤ sphereRoot2 sq s ray) ∧
      (sq (sphereDisc s ray) * sq (sphereDisc s ray) = sphereDisc s ray →
        sphereA ray ≠ 0 →
        ∀ rec, Sphere.hit sq s ray tMin (tMax : WithTop ℚ) = some rec →
          sphereA ray * (rec.t * rec.t) + 2 * sphereHalfB s ray * rec.t +
              sphereC s ray = 0 ∧
            tMin ≤ rec.t ∧ rec.t ≤ tMax ∧ rec.point = ray.at rec.t) := by
  have key : ∀ r : ℚ,
      (r < tMin ∨ (tMax : WithTop ℚ) < (r : WithTop ℚ)) ↔
        ¬(tMin ≤ r ∧ r ≤ tMax) := by
    intro r
    rw [WithTop.coe_lt_coe, not_and_or, not_le, not_le]
  refine ⟨?_, ?_, ?_⟩
  · by_cases hd : sphereDisc s ray < 0
    · simp [Sphere.hit, sphereHitSpecClosed, hd]
    · simp only [Sphere.hit, sphereHitSpecClosed, if_neg hd]
      rw [if_congr (key _) rfl rfl, if_congr (key _) rfl rfl, ite_not, ite_not]
  · intro ha h0
    unfold sphereRoot1 sphereRoot2
    rw [div_le_div_iff₀ ha ha]
    nlinarith
  · intro hsq ha rec hrec
    unfold Sphere.hit at hrec
    by_cases hd : sphereDisc s ray < 0
    · rw [if_pos hd] at hrec
      exact absurd hrec (by simp)
    · rw [if_neg hd] at hrec
      dsimp only at hrec
      by_cases h1 : sphereRoot1 sq s ray < tMin ∨
          (tMax : WithTop ℚ) < (sphereRoot1 sq s ray : WithTop ℚ)
      · rw [if_pos h1] at hrec
        by_cases h2 : sphereRoot2 sq s ray < tMin ∨
            (tMax : WithTop ℚ) < (sphereRoot2 sq s ray : WithTop ℚ)
        · rw [if_pos h2] at hrec
          exact absurd hrec (by simp)
        · rw [if_neg h2] at hrec
          have hr := (Option.some.inj hrec).symm
          rw [key] at h2
          push_neg at h2
          obtain ⟨h2a, h2b⟩ := h2
          subst hr
          exact ⟨by rw [sphereRec_t]; exact (sphereQuadEval sq s ray hsq ha).2,
            by rw [sphereRec_t]; exact h2a, by rw [sphereRec_t]; exact h2b, rfl⟩
      · rw [if_neg h1] at hrec
        have hr := (Option.some.inj hrec).symm
        rw [key] at h1
        push_neg at h1
        obtain ⟨h1a, h1b⟩ := h1
        subst hr
        exact ⟨by rw [sphereRec_t]; exact (sphereQuadEval sq s ray hsq ha).1,
          by rw [sphereRec_t]; exact h1a, by rw [sphereRec_t]; exact h1b, rfl⟩

theorem c1_sphere_hit_amended_witness :
    Sphere.hit ratSqrt ⟨⟨0, 0, 0⟩, 1, .lambertian ⟨0, 0, 0⟩⟩
        ⟨⟨-2, 0, 0⟩, ⟨1, 0, 0⟩⟩ 0 ((100 : ℚ) : WithTop ℚ) =
      sphereHitSpecClosed ratSqrt ⟨⟨0, 0, 0⟩, 1, .lambertian ⟨0, 0, 0⟩⟩
        ⟨⟨-2, 0, 0⟩, ⟨1, 0, 0⟩⟩ 0 100 ∧
    sphereRoot1 ratSqrt ⟨⟨0, 0, 0⟩, 1, .lambertian ⟨0, 0, 0⟩⟩
        ⟨⟨-2, 0, 0⟩, ⟨1, 0, 0⟩⟩ ≤
      sphereRoot2 ratSqrt ⟨⟨0, 0, 0⟩, 1, .lambertian ⟨0, 0, 0⟩⟩
        ⟨⟨-2, 0, 0⟩, ⟨1, 0, 0⟩⟩ ∧
    sphereA ⟨⟨-2, 0, 0⟩, ⟨1, 0, 0⟩⟩ *
        ((sphereRec ⟨⟨0, 0, 0⟩, 1, .lambertian ⟨0, 0, 0⟩⟩
            ⟨⟨-2, 0, 0⟩, ⟨1, 0, 0⟩⟩ 1).t *
          (sphereRec ⟨⟨0, 0, 0⟩, 1, .lambertian ⟨0, 0, 0⟩⟩
            ⟨⟨-2, 0, 0⟩, ⟨1, 0, 0⟩⟩ 1).t) +
        2 * sphereHalfB ⟨⟨0, 0, 0⟩, 1, .lambertian ⟨0, 0, 0⟩⟩
            ⟨⟨-2, 0, 0⟩, ⟨1, 0, 0⟩⟩ *
          (sphereRec ⟨⟨0, 0, 0⟩, 1, .lambertian ⟨0, 0, 0⟩⟩
            ⟨⟨-2, 0, 0⟩, ⟨1, 0, 0⟩⟩ 1).t +
        sphereC ⟨⟨0, 0, 0⟩, 1, .lambertian ⟨0, 0, 0⟩⟩
          ⟨⟨-2, 0, 0⟩, ⟨1, 0, 0⟩⟩ = 0 := by
  have h := c1_sphere_hit_amended ratSqrt
    ⟨⟨0, 0, 0⟩, 1, .lambertian ⟨0, 0, 0⟩⟩ ⟨⟨-2, 0, 0⟩, ⟨1, 0, 0⟩⟩ 0 100
  refine ⟨h.1, h.2.1 (by with_unfolding_all decide) (by with_unfolding_all decide), ?_⟩
  have h3 := h.2.2 (by with_unfolding_all decide) (by with_unfolding_all decide)
    (sphereRec ⟨⟨0, 0, 0⟩, 1, .lambertian ⟨0, 0, 0⟩⟩ ⟨⟨-2, 0, 0⟩, ⟨1, 0, 0⟩⟩ 1)
    (by with_unfolding_all decide)
  exact h3.1

theorem foldlAddV3 (l : List V3) (z : V3) :
    l.foldl (fun a b => a + b) z =
      ⟨z.x + (l.map V3.x).sum, z.y + (l.map V3.y).sum,
        z.z + (l.map V3.z).sum⟩ := by
  induction l generalizing z with
  | nil => simp
  | cons a l ih =>
    simp only [List.foldl_cons, List.map_cons, List.sum_cons]
    rw [ih]
    refine V3.ext_of _ _ ?_ ?_ ?_ <;> simp [V3.add_def] <;> ring

/-- C8: `merge_samples` computes the element-wise mean of its inputs:
for a non-empty list of equal-dimension images, every pixel of the
merged image is the component-wise sum of the input pixels divided by
the number of images — exact rational arithmetic, so for two images
the result is exactly `(A[pixel] + B[pixel]) / 2`. -/
theorem c8_merge_samples_mean (imgs : List ImageQ) (hne : imgs ≠ [])
    (hdim : ∀ im1 ∈ imgs, ∀ im2 ∈ imgs,
      im1.width = im2.width ∧ im1.height = im2.height) (i j : ℕ) :
    (mergeSamples imgs).pix i j = vmean (imgs.map fun im => im.pix i j) := by
  unfold mergeSamples vmean
  simp only
  rw [show (imgs.foldl (fun acc im => acc + im.pix i j) (⟨0, 0, 0⟩ : V3)) =
      ((imgs.map fun im => im.pix i j).foldl (fun a b => a + b)
        (⟨0, 0, 0⟩ : V3)) by rw [List.foldl_map]]
  rw [foldlAddV3]
  refine V3.ext_of _ _ ?_ ?_ ?_ <;>
    simp [V3.smul_def, List.map_map, Function.comp_def] <;>
    rw [div_eq_inv_mul] <;> ring_nf

theorem c8_merge_samples_mean_witness :
    (mergeSamples [(⟨1, 1, fun _ _ => ⟨1, 2, 3⟩⟩ : ImageQ),
        (⟨1, 1, fun _ _ => ⟨3, 4, 5⟩⟩ : ImageQ)]).pix 0 0 =
      vmean (([(⟨1, 1, fun _ _ => ⟨1, 2, 3⟩⟩ : ImageQ),
        (⟨1, 1, fun _ _ => ⟨3, 4, 5⟩⟩ : ImageQ)]).map fun im => im.pix 0 0) ∧
    vmean (([(⟨1, 1, fun _ _ => ⟨1, 2, 3⟩⟩ : ImageQ),
        (⟨1, 1, fun _ _ => ⟨3, 4, 5⟩⟩ : ImageQ)]).map fun im => im.pix 0 0) =
      ⟨(1 + 3) / 2, (2 + 4) / 2, (3 + 5) / 2⟩ := by
  constructor
  · exact c8_merge_samples_mean
      [(⟨1, 1, fun _ _ => ⟨1, 2, 3⟩⟩ : ImageQ),
        (⟨1, 1, fun _ _ => ⟨3, 4, 5⟩⟩ : ImageQ)]
      (by simp) (by decide) 0 0
  · with_unfolding_all decide

theorem ppmComp_le_255 (sq : ℚ → ℚ) (v : ℚ) : ppmComp sq v ≤ 255 := by
  unfold ppmComp qclamp
  have h1 : min (max (sq v) 0) (999 / 1000) ≤ 999 / 1000 :=
    min_le_right _ _
  have h2 : (256 : ℚ) * min (max (sq v) 0) (999 / 1000) ≤
      256 * (999 / 1000) := by linarith
  have h3 : (⌊(256 : ℚ) * min (max (sq v) 0) (999 / 1000)⌋ : ℤ) ≤ 255 := by
    have h4 := Int.floor_mono h2
    have h5 : ⌊(256 * (999 / 1000) : ℚ)⌋ = 255 := by norm_num
    omega
  omega

theorem gridLen (w h : ℕ) (g : ℕ → ℕ → ℕ × ℕ × ℕ) :
    (((List.range h).reverse).flatMap fun j =>
      (List.range w).map fun i => g i j).length = h * w := by
  induction h with
  | zero => simp
  | succ h ih =>
    rw [List.range_succ, List.reverse_append]
    simp only [List.reverse_singleton, List.singleton_append,
      List.flatMap_cons, List.length_append, List.length_map,
      List.length_range]
    rw [ih]
    ring

theorem gridIdx (w : ℕ) (g : ℕ → ℕ → ℕ × ℕ × ℕ) :
    ∀ (h n : ℕ), n < h * w →
      ((((List.range h).reverse).flatMap fun j =>
        (List.range w).map fun i => g i j))[n]? =
        some (g (n % w) (h - 1 - n / w)) := by
  intro h
  induction h with
  | zero => intro n hn; simp at hn
  | succ h ih =>
    intro n hn
    have hmul : (h + 1) * w = h * w + w := by ring
    have hw : 0 < w := by
      rcases Nat.eq_zero_or_pos w with h0 | h0
      · subst h0; simp at hn
      · exact h0
    rw [List.range_succ, List.reverse_append]
    simp only [List.reverse_singleton, List.singleton_append,
      List.flatMap_cons]
    rw [List.getElem?_append]
    simp only [List.length_map, List.length_range]
    by_cases hcase : n < w
    · rw [if_pos hcase]
      rw [List.getElem?_map, List.getElem?_range hcase,
        Nat.mod_eq_of_lt hcase, Nat.div_eq_of_lt hcase]
      rfl
    · push_neg at hcase
      rw [if_neg (by omega)]
      have hn2 : n - w < h * w := by
        rw [hmul] at hn
        omega
      rw [ih (n - w) hn2]
      have e1 : n % w = (n - w) % w := Nat.mod_eq_sub_mod hcase
      have e2 : n / w = (n - w) / w + 1 := Nat.div_eq_sub_div hw hcase
      rw [e1, e2]
      have e3 : h - 1 - (n - w) / w = h + 1 - 1 - ((n - w) / w + 1) := by
        omega
      rw [e3]

/-- C10: `to_ppm_list` produces exactly `height * width` pixel rows of
three integers each in `[0, 255]` (the gamma square root is applied
before the clamp to `[0, 0.999]` and the scale by 256, so the bound
holds for every square-root function), and the row at flat index `n`
is the pixel at column `n % width` and buffer row
`height - 1 - n / width`: buffer rows descend from `height - 1` to
`0`, columns ascend. -/
theorem c10_output_order (sq : ℚ → ℚ) (im : ImageQ) :
    (toPpmList sq im).length = im.height * im.width ∧
      (∀ n, n < im.height * im.width →
        (toPpmList sq im)[n]? =
          some (ppmTriple sq (im.pix (n % im.width)
            (im.height - 1 - n / im.width)))) ∧
      ∀ p ∈ toPpmList sq im, p.1 ≤ 255 ∧ p.2.1 ≤ 255 ∧ p.2.2 ≤ 255 := by
  refine ⟨gridLen im.width im.height _,
    fun n hn => gridIdx im.width _ im.height n hn, ?_⟩
  intro p hp
  unfold toPpmList at hp
  simp only [List.mem_flatMap, List.mem_map] at hp
  obtain ⟨j, -, i, -, rfl⟩ := hp
  exact ⟨ppmComp_le_255 sq _, ppmComp_le_255 sq _, ppmComp_le_255 sq _⟩

theorem c10_output_order_witness :
    (toPpmList ratSqrt (⟨2, 2, fun i j =>
        if i = 0 ∧ j = 0 then ⟨0, 0, 0⟩
        else if i = 1 ∧ j = 0 then ⟨1 / 4, 0, 0⟩
        else if i = 0 ∧ j = 1 then ⟨9 / 16, 0, 0⟩
        else ⟨1, 0, 0⟩⟩ : ImageQ)).length = 2 * 2 ∧
    (toPpmList ratSqrt (⟨2, 2, fun i j =>
        if i = 0 ∧ j = 0 then ⟨0, 0, 0⟩
        else if i = 1 ∧ j = 0 then ⟨1 / 4, 0, 0⟩
        else if i = 0 ∧ j = 1 then ⟨9 / 16, 0, 0⟩
        else ⟨1, 0, 0⟩⟩ : ImageQ))[0]? =
      some (ppmTriple ratSqrt ((⟨2, 2, fun i j =>
        if i = 0 ∧ j = 0 then ⟨0, 0, 0⟩
        else if i = 1 ∧ j = 0 then ⟨1 / 4, 0, 0⟩
        else if i = 0 ∧ j = 1 then ⟨9 / 16, 0, 0⟩
        else ⟨1, 0, 0⟩⟩ : ImageQ).pix (0 % 2) (2 - 1 - 0 / 2))) ∧
    ppmTriple ratSqrt ((⟨2, 2, fun i j =>
        if i = 0 ∧ j = 0 then ⟨0, 0, 0⟩
        else if i = 1 ∧ j = 0 then ⟨1 / 4, 0, 0⟩
        else if i = 0 ∧ j = 1 then ⟨9 / 16, 0, 0⟩
        else ⟨1, 0, 0⟩⟩ : ImageQ).pix (0 % 2) (2 - 1 - 0 / 2)) =
      (192, 0, 0) ∧
    (192, 0, 0).1 ≤ 255 ∧ ((192 : ℕ), (0 : ℕ), (0 : ℕ)).2.1 ≤ 255 ∧
      ((192 : ℕ), (0 : ℕ), (0 : ℕ)).2.2 ≤ 255 := by
  have h := c10_output_order ratSqrt (⟨2, 2, fun i j =>
    if i = 0 ∧ j = 0 then ⟨0, 0, 0⟩
    else if i = 1 ∧ j = 0 then ⟨1 / 4, 0, 0⟩
    else if i = 0 ∧ j = 1 then ⟨9 / 16, 0, 0⟩
    else ⟨1, 0, 0⟩⟩ : ImageQ)
  have hval : ppmTriple ratSqrt ((⟨2, 2, fun i j =>
      if i = 0 ∧ j = 0 then ⟨0, 0, 0⟩
      else if i = 1 ∧ j = 0 then ⟨1 / 4, 0, 0⟩
      else if i = 0 ∧ j = 1 then ⟨9 / 16, 0, 0⟩
      else ⟨1, 0, 0⟩⟩ : ImageQ).pix (0 % 2) (2 - 1 - 0 / 2)) =
      (192, 0, 0) := by with_unfolding_all decide
  refine ⟨h.1, h.2.1 0 (by norm_num), hval, ?_⟩
  have hm : (192, (0 : ℕ), (0 : ℕ)) ∈ toPpmList ratSqrt (⟨2, 2, fun i j =>
      if i = 0 ∧ j = 0 then ⟨0, 0, 0⟩
      else if i = 1 ∧ j = 0 then ⟨1 / 4, 0, 0⟩
      else if i = 0 ∧ j = 1 then ⟨9 / 16, 0, 0⟩
      else ⟨1, 0, 0⟩⟩ : ImageQ) := by with_unfolding_all decide
  exact h.2.2 (192, 0, 0) hm

theorem c5_refract_amended_witness :
    refract ratSqrt ⟨0, -1, 0⟩ ⟨0, 1, 0⟩ 5 =
        (5 : ℚ) • ((⟨0, -1, 0⟩ : V3) +
          (-(min ((⟨0, -1, 0⟩ : V3).dot ⟨0, 1, 0⟩) (-1))) • (⟨0, 1, 0⟩ : V3)) +
          (-(ratSqrt |1 - ((5 : ℚ) • ((⟨0, -1, 0⟩ : V3) +
              (-(min ((⟨0, -1, 0⟩ : V3).dot ⟨0, 1, 0⟩) (-1))) •
                (⟨0, 1, 0⟩ : V3))).dot
              ((5 : ℚ) • ((⟨0, -1, 0⟩ : V3) +
              (-(min ((⟨0, -1, 0⟩ : V3).dot ⟨0, 1, 0⟩) (-1))) •
                (⟨0, 1, 0⟩ : V3)))|)) • (⟨0, 1, 0⟩ : V3) ∧
      1 ≤ -(min ((⟨0, -1, 0⟩ : V3).dot ⟨0, 1, 0⟩) (-1)) ∧
      refract ratSqrt ⟨0, -1, 0⟩ ⟨0, 1, 0⟩ 5 =
        refractSpec ratSqrt ⟨0, -1, 0⟩ ⟨0, 1, 0⟩ 5 := by
  have h := c5_refract_amended ratSqrt ⟨0, -1, 0⟩ ⟨0, 1, 0⟩ 5
  exact ⟨h.1, h.2.1, h.2.2 (by with_unfolding_all decide)
    (by with_unfolding_all decide)⟩

theorem sphereHit_material (sq : ℚ → ℚ) (s : Sphere) (ray : Ray)
    (tMin : ℚ) (tMax : WithTop ℚ) (r : HitRecord)
    (h : Sphere.hit sq s ray tMin tMax = some r) : r.material = s.material := by
  unfold Sphere.hit at h
  dsimp only at h
  split_ifs at h
  all_goals
    first
      | rw [← Option.some.inj h, sphereRec_material]
      | exact absurd h (by simp)

theorem listHitGo_material (sq : ℚ → ℚ) (ray : Ray) (tMin : ℚ) :
    ∀ (l : List Sphere) (acc : Option HitRecord) (closest : WithTop ℚ)
      (rec : HitRecord), listHitGo sq ray tMin l acc closest = some rec →
      (∃ s ∈ l, rec.material = s.material) ∨ acc = some rec := by
  intro l
  induction l with
  | nil =>
    intro acc closest rec h
    exact Or.inr h
  | cons s rest ih =>
    intro acc closest rec h
    unfold listHitGo at h
    rcases hs : Sphere.hit sq s ray tMin closest with _ | r2
    · rw [hs] at h
      rcases ih acc closest rec h with h1 | h1
      · obtain ⟨s2, hmem, he⟩ := h1
        exact Or.inl ⟨s2, List.mem_cons_of_mem s hmem, he⟩
      · exact Or.inr h1
    · rw [hs] at h
      rcases ih (some r2) (r2.t : WithTop ℚ) rec h with h1 | h1
      · obtain ⟨s2, hmem, he⟩ := h1
        exact Or.inl ⟨s2, List.mem_cons_of_mem s hmem, he⟩
      · have he : rec = r2 := (Option.some.inj h1).symm
        subst he
        exact Or.inl ⟨s, List.mem_cons_self s rest,
          sphereHit_material sq s ray tMin closest rec hs⟩

theorem listHit_material (sq : ℚ → ℚ) (world : List Sphere) (ray : Ray)
    (tMin : ℚ) (tMax : WithTop ℚ) (rec : HitRecord)
    (h : listHit sq world ray tMin tMax = some rec) :
    ∃ s ∈ world, rec.material = s.material := by
  rcases listHitGo_material sq ray tMin world none tMax rec h with h1 | h1
  · exact h1
  · exact absurd h1 (by simp)

theorem scatter_att_in01 (sq : ℚ → ℚ) (rnd : V3 × ℚ) (mat : Material)
    (ray : Ray) (rec : HitRecord) (att : V3) (r2 : Ray)
    (hm : albedoIn01 mat) (h : scatter sq rnd mat ray rec = some (att, r2)) :
    (0 ≤ att.x ∧ att.x ≤ 1) ∧ (0 ≤ att.y ∧ att.y ≤ 1) ∧
      (0 ≤ att.z ∧ att.z ≤ 1) := by
  cases mat with
  | lambertian a =>
    simp only [scatter] at h
    rw [Option.some.injEq, Prod.mk.injEq] at h
    obtain ⟨ha, -⟩ := h
    subst ha
    obtain ⟨h1, h2, h3, h4, h5, h6⟩ := hm
    exact ⟨⟨h1, h2⟩, ⟨h3, h4⟩, h5, h6⟩
  | metal a f =>
    simp only [scatter] at h
    split_ifs at h
    rw [Option.some.injEq, Prod.mk.injEq] at h
    obtain ⟨ha, -⟩ := h
    subst ha
    obtain ⟨h1, h2, h3, h4, h5, h6⟩ := hm
    exact ⟨⟨h1, h2⟩, ⟨h3, h4⟩, h5, h6⟩
  | dielectric ir =>
    simp only [scatter] at h
    rw [Option.some.injEq, Prod.mk.injEq] at h
    obtain ⟨ha, -⟩ := h
    subst ha
    norm_num

theorem bgT_mem (sq : ℚ → ℚ) (hsq0 : ∀ x, 0 ≤ sq x)
    (hsqb : ∀ x y, y * y ≤ x → y ≤ sq x) (v : V3) :
    0 ≤ (1 / 2 : ℚ) * ((unitVec sq v).y + 1) ∧
      (1 / 2 : ℚ) * ((unitVec sq v).y + 1) ≤ 1 := by
  have hyy : v.y * v.y ≤ v.lengthSquared := by
    unfold V3.lengthSquared V3.dot
    nlinarith [sq_nonneg v.x, sq_nonneg v.z]
  have hb1 : v.y ≤ sq v.lengthSquared := hsqb _ _ hyy
  have hb2 : -v.y ≤ sq v.lengthSquared := hsqb _ _ (by nlinarith [hyy])
  have h0 : 0 ≤ sq v.lengthSquared := hsq0 _
  have hu : (unitVec sq v).y = 1 / sq v.lengthSquared * v.y := rfl
  rcases eq_or_lt_of_le h0 with heq | hpos
  · rw [hu, ← heq]
    norm_num
  · have hle : 1 / sq v.lengthSquared * v.y ≤ 1 := by
      rw [one_div, inv_mul_eq_div, div_le_one hpos]
      exact hb1
    have hge : -1 ≤ 1 / sq v.lengthSquared * v.y := by
      rw [one_div, inv_mul_eq_div, le_div_iff₀ hpos]
      linarith
    rw [hu]
    constructor <;> linarith

theorem rcFuel_in01 (sq : ℚ → ℚ) (world : List Sphere) (oracle : Oracle)
    (hsq0 : ∀ x, 0 ≤ sq x) (hsqb : ∀ x y, y * y ≤ x → y ≤ sq x)
    (hmat : ∀ s ∈ world, albedoIn01 s.material) :
    ∀ (fuel : ℕ) (depth : ℤ) (ray : Ray),
      (0 ≤ (rcFuel sq world oracle fuel depth ray).x ∧
          (rcFuel sq world oracle fuel depth ray).x ≤ 1) ∧
        (0 ≤ (rcFuel sq world oracle fuel depth ray).y ∧
          (rcFuel sq world oracle fuel depth ray).y ≤ 1) ∧
        (0 ≤ (rcFuel sq world oracle fuel depth ray).z ∧
          (rcFuel sq world oracle fuel depth ray).z ≤ 1) := by
  intro fuel
  induction fuel with
  | zero =>
    intro depth ray
    norm_num [rcFuel]
  | succ n ih =>
    intro depth ray
    unfold rcFuel
    rcases hh : listHit sq world ray (1 / 1000) ⊤ with _ | rec
    · dsimp only
      have ht := bgT_mem sq hsq0 hsqb ray.dir
      refine ⟨⟨?_, ?_⟩, ⟨?_, ?_⟩, ?_, ?_⟩ <;>
        simp only [V3.add_def, V3.smul_def] <;> nlinarith [ht.1, ht.2]
    · dsimp only
      rcases hs : scatter sq (oracle depth) rec.material ray rec with _ | pair
      · dsimp only
        norm_num
      · obtain ⟨att, scR⟩ := pair
        dsimp only
        obtain ⟨s, hsmem, hsm⟩ :=
          listHit_material sq world ray (1 / 1000) ⊤ rec hh
        have hb := scatter_att_in01 sq (oracle depth) rec.material ray rec
          att scR (by rw [hsm]; exact hmat s hsmem) hs
        have hr := ih (depth - 1) scR
        exact ⟨⟨mul_nonneg hb.1.1 hr.1.1,
            mul_le_one₀ hb.1.2 hr.1.1 hr.1.2⟩,
          ⟨mul_nonneg hb.2.1.1 hr.2.1.1,
            mul_le_one₀ hb.2.1.2 hr.2.1.1 hr.2.1.2⟩,
          mul_nonneg hb.2.2.1 hr.2.2.1,
          mul_le_one₀ hb.2.2.2 hr.2.2.1 hr.2.2.2⟩

/-- C7 (amended): if every Lambertian or Metal albedo in the world has
components in `[0, 1]` (the claim bound `≤ 1` plus the colour model
non-negativity, which the claim omits and which is necessary — see the
counterexample) and the square-root argument is non-negative and an
over-approximation of every rational below the true square root, then
every component of `ray_color` is at most 1 for every ray, depth, and
outcome of the random draws. -/
theorem c7_ray_color_bounded (sq : ℚ → ℚ) (world : List Sphere)
    (oracle : Oracle) (ray : Ray) (depth : ℤ)
    (hsq0 : ∀ x, 0 ≤ sq x) (hsqb : ∀ x y, y * y ≤ x → y ≤ sq x)
    (hmat : ∀ s ∈ world, albedoIn01 s.material) :
    (rayColor sq world oracle ray depth).x ≤ 1 ∧
      (rayColor sq world oracle ray depth).y ≤ 1 ∧
      (rayColor sq world oracle ray depth).z ≤ 1 := by
  have h := rcFuel_in01 sq world oracle hsq0 hsqb hmat depth.toNat depth ray
  exact ⟨h.1.2, h.2.1.2, h.2.2.2⟩

theorem c7_ray_color_bounded_witness :
    (rayColor ratSqrt [] (fun _ => (⟨0, 0, 0⟩, 0))
        ⟨⟨0, 0, 0⟩, ⟨1, 0, 0⟩⟩ 1).x ≤ 1 ∧
      (rayColor ratSqrt [] (fun _ => (⟨0, 0, 0⟩, 0))
        ⟨⟨0, 0, 0⟩, ⟨1, 0, 0⟩⟩ 1).y ≤ 1 ∧
      (rayColor ratSqrt [] (fun _ => (⟨0, 0, 0⟩, 0))
        ⟨⟨0, 0, 0⟩, ⟨1, 0, 0⟩⟩ 1).z ≤ 1 :=
  c7_ray_color_bounded ratSqrt [] (fun _ => (⟨0, 0, 0⟩, 0))
    ⟨⟨0, 0, 0⟩, ⟨1, 0, 0⟩⟩ 1 ratSqrt_nonneg ratSqrt_le (by simp)

/-- C7 (counterexample): the claim as stated only bounds albedo
components from above; with the (allowed) negative albedo `(-2,-2,-2)`
two bounces multiply two negative attenuations and amplify the
background: in a two-sphere world, after two Lambertian bounces driven
by the unit draw `(0,1,0)`, `ray_color` at depth 3 returns
`(5/2, 31/10, 4)` — its `z` component is `4 > 1`.  Every square-root
application along this path is either exact or at a miss, and the
hypotheses on `sq` hold for `ratSqrt`. -/
theorem c7_counterexample : ¬ claimC7 := by
  intro h
  have h3 := (h ratSqrt ratSqrt_nonneg ratSqrt_le
    [⟨⟨0, 0, 0⟩, 1, .lambertian ⟨-2, -2, -2⟩⟩,
      ⟨⟨-6, 3, 0⟩, 2, .lambertian ⟨-2, -2, -2⟩⟩]
    (by with_unfolding_all decide) (fun _ => (⟨0, 1, 0⟩, 0))
    ⟨⟨-2, 0, 0⟩, ⟨1, 0, 0⟩⟩ 3).2.2
  have hz : (rayColor ratSqrt
      [⟨⟨0, 0, 0⟩, 1, .lambertian ⟨-2, -2, -2⟩⟩,
        ⟨⟨-6, 3, 0⟩, 2, .lambertian ⟨-2, -2, -2⟩⟩]
      (fun _ => (⟨0, 1, 0⟩, 0)) ⟨⟨-2, 0, 0⟩, ⟨1, 0, 0⟩⟩ 3).z = 4 := by
    with_unfolding_all decide
  rw [hz] at h3
  norm_num at h3

theorem closestFold_cons (sq : ℚ → ℚ) (ray : Ray) (tMin : ℚ) (s : Sphere)
    (l : List Sphere) (c : WithTop ℚ) :
    closestFold sq ray tMin (s :: l) c =
      closestFold sq ray tMin l (min c (thrW sq ray tMin s)) := rfl

theorem closestFold_le_init (sq : ℚ → ℚ) (ray : Ray) (tMin : ℚ) :
    ∀ (l : List Sphere) (c : WithTop ℚ), closestFold sq ray tMin l c ≤ c := by
  intro l
  induction l with
  | nil => intro c; exact le_refl c
  | cons s rest ih =>
    intro c
    rw [closestFold_cons]
    exact le_trans (ih _) (min_le_left _ _)

theorem closestFold_le_mem (sq : ℚ → ℚ) (ray : Ray) (tMin : ℚ) :
    ∀ (l : List Sphere) (c : WithTop ℚ) (s : Sphere), s ∈ l →
      closestFold sq ray tMin l c ≤ thrW sq ray tMin s := by
  intro l
  induction l with
  | nil => intro c s hs; exact absurd hs (List.not_mem_nil s)
  | cons s2 rest ih =>
    intro c s hs
    rw [closestFold_cons]
    rcases List.mem_cons.mp hs with h | h
    · subst h
      exact le_trans (closestFold_le_init sq ray tMin rest _)
        (min_le_right _ _)
    · exact ih _ s h

theorem closestFold_perm (sq : ℚ → ℚ) (ray : Ray) (tMin : ℚ)
    (l l2 : List Sphere) (c : WithTop ℚ) (hp : l.Perm l2) :
    closestFold sq ray tMin l c = closestFold sq ray tMin l2 c := by
  unfold closestFold
  exact (hp.map (thrW sq ray tMin)).foldl_eq c

theorem sphereHit_char (sq : ℚ → ℚ) (s : Sphere) (ray : Ray) (tMin : ℚ)
    (hA : 0 < sphereA ray) (hs0 : 0 ≤ sq (sphereDisc s ray))
    (τ : WithTop ℚ) :
    Sphere.hit sq s ray tMin τ =
      match sphereThreshold sq s ray tMin with
      | some v =>
        if (v : WithTop ℚ) ≤ τ then some (sphereRec s ray v) else none
      | none => none := by
  have h12 : sphereRoot1 sq s ray ≤ sphereRoot2 sq s ray := by
    unfold sphereRoot1 sphereRoot2
    rw [div_le_div_iff₀ hA hA]
    nlinarith
  unfold Sphere.hit sphereThreshold
  by_cases hd : sphereDisc s ray < 0
  · simp [hd]
  · rw [if_neg hd, if_neg hd]
    dsimp only
    by_cases h1 : tMin ≤ sphereRoot1 sq s ray
    · rw [if_pos h1]
      by_cases hτ : ((sphereRoot1 sq s ray : WithTop ℚ) ≤ τ)
      · rw [if_neg (by push_neg; exact ⟨h1, hτ⟩)]
        dsimp only
        rw [if_pos hτ]
      · rw [if_pos (Or.inr (not_le.mp hτ)),
          if_pos (Or.inr (lt_of_lt_of_le (not_le.mp hτ)
            (WithTop.coe_le_coe.mpr h12)))]
        dsimp only
        rw [if_neg hτ]
    · rw [if_neg h1]
      by_cases h2 : tMin ≤ sphereRoot2 sq s ray
      · rw [if_pos h2, if_pos (Or.inl (not_le.mp h1))]
        by_cases hτ : ((sphereRoot2 sq s ray : WithTop ℚ) ≤ τ)
        · rw [if_neg (by push_neg; exact ⟨h2, hτ⟩)]
          dsimp only
          rw [if_pos hτ]
        · rw [if_pos (Or.inr (not_le.mp hτ))]
          dsimp only
          rw [if_neg hτ]
      · rw [if_neg h2, if_pos (Or.inl (not_le.mp h1)),
          if_pos (Or.inl (not_le.mp h2))]

theorem listHitGo_some_acc (sq : ℚ → ℚ) (ray : Ray) (tMin : ℚ) :
    ∀ (l : List Sphere) (r : HitRecord) (c : WithTop ℚ),
      ∃ r2, listHitGo sq ray tMin l (some r) c = some r2 := by
  intro l
  induction l with
  | nil => intro r c; exact ⟨r, rfl⟩
  | cons s rest ih =>
    intro r c
    unfold listHitGo
    rcases hs : Sphere.hit sq s ray tMin c with _ | r2
    · exact ih r c
    · exact ih r2 _

theorem listHitGo_none_iff (sq : ℚ → ℚ) (ray : Ray) (tMin : ℚ)
    (hA : 0 < sphereA ray) (hsq0 : ∀ x, 0 ≤ sq x) :
    ∀ (l : List Sphere) (acc : Option HitRecord) (c : WithTop ℚ),
      listHitGo sq ray tMin l acc c = none ↔
        (acc = none ∧ ∀ s ∈ l, ∀ v, sphereThreshold sq s ray tMin = some v →
          ¬((v : WithTop ℚ) ≤ c)) := by
  intro l
  induction l with
  | nil =>
    intro acc c
    simp [listHitGo]
  | cons s rest ih =>
    intro acc c
    unfold listHitGo
    have hc := sphereHit_char sq s ray tMin hA (hsq0 _) c
    rcases hthr : sphereThreshold sq s ray tMin with _ | v
    · rw [hthr] at hc
      dsimp only at hc
      rw [hc]
      rw [ih acc c]
      constructor
      · rintro ⟨ha, hrest⟩
        refine ⟨ha, fun s2 hs2 v hv => ?_⟩
        rcases List.mem_cons.mp hs2 with h | h
        · subst h
          rw [hthr] at hv
          exact absurd hv (by simp)
        · exact hrest s2 h v hv
      · rintro ⟨ha, hall⟩
        exact ⟨ha, fun s2 h v hv => hall s2 (List.mem_cons_of_mem s h) v hv⟩
    · rw [hthr] at hc
      dsimp only at hc
      by_cases hvc : ((v : WithTop ℚ) ≤ c)
      · rw [if_pos hvc] at hc
        rw [hc]
        constructor
        · intro h
          obtain ⟨r2, hr2⟩ := listHitGo_some_acc sq ray tMin rest
            (sphereRec s ray v) ((sphereRec s ray v).t : WithTop ℚ)
          exact absurd (hr2.symm.trans h) (by simp)
        · rintro ⟨-, hall⟩
          exact absurd hvc (hall s (List.mem_cons_self s rest) v hthr)
      · rw [if_neg hvc] at hc
        rw [hc]
        rw [ih acc c]
        constructor
        · rintro ⟨ha, hrest⟩
          refine ⟨ha, fun s2 hs2 v2 hv2 => ?_⟩
          rcases List.mem_cons.mp hs2 with h | h
          · subst h
            rw [hthr] at hv2
            rw [← Option.some.inj hv2]
            exact hvc
          · exact hrest s2 h v2 hv2
        · rintro ⟨ha, hall⟩
          exact ⟨ha, fun s2 h v2 hv2 =>
            hall s2 (List.mem_cons_of_mem s h) v2 hv2⟩

theorem listHitGo_some_spec (sq : ℚ → ℚ) (ray : Ray) (tMin : ℚ)
    (hA : 0 < sphereA ray) (hsq0 : ∀ x, 0 ≤ sq x) :
    ∀ (l : List Sphere) (acc : Option HitRecord) (c : WithTop ℚ),
      (∀ r0, acc = some r0 → (r0.t : WithTop ℚ) = c) →
      ∀ r, listHitGo sq ray tMin l acc c = some r →
        (r.t : WithTop ℚ) = closestFold sq ray tMin l c ∧
          (acc = some r ∨ ∃ s ∈ l,
            sphereThreshold sq s ray tMin = some r.t ∧
              r = sphereRec s ray r.t ∧ (r.t : WithTop ℚ) ≤ c) := by
  intro l
  induction l with
  | nil =>
    intro acc c hinv r h
    exact ⟨hinv r h, Or.inl h⟩
  | cons s rest ih =>
    intro acc c hinv r h
    unfold listHitGo at h
    have hc := sphereHit_char sq s ray tMin hA (hsq0 _) c
    rcases hthr : sphereThreshold sq s ray tMin with _ | v
    · rw [hthr] at hc
      dsimp only at hc
      rw [hc] at h
      obtain ⟨h1, h2⟩ := ih acc c hinv r h
      have hmin : min c (thrW sq ray tMin s) = c := by
        unfold thrW
        rw [hthr]
        exact min_eq_left le_top
      refine ⟨by rw [closestFold_cons, hmin]; exact h1, ?_⟩
      rcases h2 with h2 | ⟨s2, hmem, hrest⟩
      · exact Or.inl h2
      · exact Or.inr ⟨s2, List.mem_cons_of_mem s hmem, hrest⟩
    · rw [hthr] at hc
      dsimp only at hc
      have hw : thrW sq ray tMin s = (v : WithTop ℚ) := by
        unfold thrW
        rw [hthr]
      by_cases hvc : ((v : WithTop ℚ) ≤ c)
      · rw [if_pos hvc] at hc
        rw [hc] at h
        have hrecT : (sphereRec s ray v).t = v := sphereRec_t s ray v
        have hinv2 : ∀ r0, some (sphereRec s ray v) = some r0 →
            (r0.t : WithTop ℚ) = ((sphereRec s ray v).t : WithTop ℚ) := by
          intro r0 h0
          rw [← Option.some.inj h0]
        obtain ⟨h1, h2⟩ := ih (some (sphereRec s ray v))
          ((sphereRec s ray v).t : WithTop ℚ) hinv2 r h
        refine ⟨?_, ?_⟩
        · rw [closestFold_cons, hw, min_eq_right hvc]
          rw [h1, hrecT]
        · rcases h2 with h2 | ⟨s2, hmem, hthr2, hrec2, hle2⟩
          · have he : r = sphereRec s ray v := (Option.some.inj h2).symm
            subst he
            refine Or.inr ⟨s, List.mem_cons_self s rest, ?_, ?_, ?_⟩
            · rw [hrecT]
              exact hthr
            · rw [hrecT]
            · rw [hrecT]
              exact hvc
          · refine Or.inr ⟨s2, List.mem_cons_of_mem s hmem, hthr2, hrec2,
              le_trans hle2 ?_⟩
            rw [hrecT]
            exact hvc
      · rw [if_neg hvc] at hc
        rw [hc] at h
        obtain ⟨h1, h2⟩ := ih acc c hinv r h
        refine ⟨?_, ?_⟩
        · rw [closestFold_cons, hw, min_eq_left (le_of_lt (not_le.mp hvc))]
          exact h1
        · rcases h2 with h2 | ⟨s2, hmem, hrest⟩
          · exact Or.inl h2
          · exact Or.inr ⟨s2, List.mem_cons_of_mem s hmem, hrest⟩

/-- C9: `HittableList::hit` returns the accepted hit with the smallest
`t` among all primitives (or none, exactly when every primitive misses
under the same bounds); under any permutation of the scene list the
`t` of the result (and whether there is one) is unchanged, and two
permutations can disagree on the returned record only when both
records carry the same `t` — and then their hit points coincide (both
are `ray.at t`), i.e. only through a tie of two surfaces passing
through the same point (distance zero apart), the degenerate case the
spec describes. -/
theorem c9_list_hit_permutation (sq : ℚ → ℚ) (l l2 : List Sphere)
    (ray : Ray) (tMin : ℚ) (tMax : WithTop ℚ) (hA : 0 < sphereA ray)
    (hsq0 : ∀ x, 0 ≤ sq x) (hp : l.Perm l2) :
    ((listHit sq l ray tMin tMax).map (fun r => r.t) =
        (listHit sq l2 ray tMin tMax).map (fun r => r.t)) ∧
      (∀ rec, listHit sq l ray tMin tMax = some rec →
        (∃ s ∈ l, ∃ rec0, Sphere.hit sq s ray tMin tMax = some rec0 ∧
            rec0.t = rec.t) ∧
          (∀ s ∈ l, ∀ rec0, Sphere.hit sq s ray tMin tMax = some rec0 →
            rec.t ≤ rec0.t) ∧
          rec.point = ray.at rec.t) ∧
      (listHit sq l ray tMin tMax = none →
        ∀ s ∈ l, Sphere.hit sq s ray tMin tMax = none) ∧
      (∀ rec rec2, listHit sq l ray tMin tMax = some rec →
        listHit sq l2 ray tMin tMax = some rec2 →
        rec.t = rec2.t ∧ rec.point = rec2.point) := by
  have hinv : ∀ r0 : HitRecord, (none : Option HitRecord) = some r0 →
      ((r0.t : WithTop ℚ) = tMax) := by
    intro r0 h0
    exact absurd h0 (by simp)
  have hB : ∀ (m : List Sphere) (rec : HitRecord),
      listHit sq m ray tMin tMax = some rec →
      (∃ s ∈ m, ∃ rec0, Sphere.hit sq s ray tMin tMax = some rec0 ∧
          rec0.t = rec.t) ∧
        (∀ s ∈ m, ∀ rec0, Sphere.hit sq s ray tMin tMax = some rec0 →
          rec.t ≤ rec0.t) ∧
        rec.point = ray.at rec.t ∧
        (rec.t : WithTop ℚ) = closestFold sq ray tMin m tMax := by
    intro m rec h
    obtain ⟨h1, h2⟩ := listHitGo_some_spec sq ray tMin hA hsq0 m none tMax
      hinv rec h
    rcases h2 with h2 | ⟨s, hmem, hthr, hrec, hle⟩
    · exact absurd h2 (by simp)
    refine ⟨?_, ?_, ?_, h1⟩
    · refine ⟨s, hmem, sphereRec s ray rec.t, ?_, sphereRec_t s ray rec.t⟩
      rw [sphereHit_char sq s ray tMin hA (hsq0 _) tMax, hthr]
      dsimp only
      rw [if_pos hle]
    · intro s2 hs2 rec0 h0
      rw [sphereHit_char sq s2 ray tMin hA (hsq0 _) tMax] at h0
      rcases hthr2 : sphereThreshold sq s2 ray tMin with _ | v
      · rw [hthr2] at h0
        exact absurd h0 (by simp)
      · rw [hthr2] at h0
        dsimp only at h0
        by_cases hvc : ((v : WithTop ℚ) ≤ tMax)
        · rw [if_pos hvc] at h0
          have he0 : rec0 = sphereRec s2 ray v := (Option.some.inj h0).symm
          have ht0 : rec0.t = v := by
            rw [he0]
            exact sphereRec_t s2 ray v
          have hw2 : thrW sq ray tMin s2 = (v : WithTop ℚ) := by
            unfold thrW
            rw [hthr2]
          have hle2 : (rec.t : WithTop ℚ) ≤ (v : WithTop ℚ) := by
            rw [h1, ← hw2]
            exact closestFold_le_mem sq ray tMin m tMax s2 hs2
          rw [ht0]
          exact WithTop.coe_le_coe.mp hle2
        · rw [if_neg hvc] at h0
          exact absurd h0 (by simp)
    · conv_lhs => rw [hrec]
      exact sphereRec_point s ray rec.t
  refine ⟨?_, ?_, ?_, ?_⟩
  · rcases hl : listHit sq l ray tMin tMax with _ | rec
    · have h2 := (listHitGo_none_iff sq ray tMin hA hsq0 l none tMax).mp hl
      have hl2 : listHit sq l2 ray tMin tMax = none :=
        (listHitGo_none_iff sq ray tMin hA hsq0 l2 none tMax).mpr
          ⟨rfl, fun s hs v hv => h2.2 s (hp.mem_iff.mpr hs) v hv⟩
      rw [hl2]
    · rcases hl2 : listHit sq l2 ray tMin tMax with _ | rec2
      · have h2 := (listHitGo_none_iff sq ray tMin hA hsq0 l2 none tMax).mp hl2
        have hln : listHit sq l ray tMin tMax = none :=
          (listHitGo_none_iff sq ray tMin hA hsq0 l none tMax).mpr
            ⟨rfl, fun s hs v hv => h2.2 s (hp.mem_iff.mp hs) v hv⟩
        rw [hln] at hl
        exact absurd hl (by simp)
      · have hBl := hB l rec hl
        have hBl2 := hB l2 rec2 hl2
        have ht : rec.t = rec2.t := by
          have hc : (rec.t : WithTop ℚ) = (rec2.t : WithTop ℚ) := by
            rw [hBl.2.2.2, hBl2.2.2.2, closestFold_perm sq ray tMin l l2 tMax hp]
          exact_mod_cast hc
        simp [ht]
  · intro rec h
    exact ⟨(hB l rec h).1, (hB l rec h).2.1, (hB l rec h).2.2.1⟩
  · intro h s hs
    have h2 := (listHitGo_none_iff sq ray tMin hA hsq0 l none tMax).mp h
    rw [sphereHit_char sq s ray tMin hA (hsq0 _) tMax]
    rcases hthr : sphereThreshold sq s ray tMin with _ | v
    · rfl
    · dsimp only
      rw [if_neg (h2.2 s hs v hthr)]
  · intro rec rec2 h1 h2
    have hBl := hB l rec h1
    have hBl2 := hB l2 rec2 h2
    have ht : rec.t = rec2.t := by
      have hc : (rec.t : WithTop ℚ) = (rec2.t : WithTop ℚ) := by
        rw [hBl.2.2.2, hBl2.2.2.2, closestFold_perm sq ray tMin l l2 tMax hp]
      exact_mod_cast hc
    exact ⟨ht, by rw [hBl.2.2.1, hBl2.2.2.1, ht]⟩

theorem c9_list_hit_permutation_witness :
    ((listHit ratSqrt [⟨⟨0, 0, 0⟩, 1, .lambertian ⟨1, 0, 0⟩⟩,
          ⟨⟨10, 0, 0⟩, 1, .metal ⟨0, 1, 0⟩ 0⟩] ⟨⟨-2, 0, 0⟩, ⟨1, 0, 0⟩⟩ 0
          ((100 : ℚ) : WithTop ℚ)).map (fun r => r.t) =
        (listHit ratSqrt [⟨⟨10, 0, 0⟩, 1, .metal ⟨0, 1, 0⟩ 0⟩,
          ⟨⟨0, 0, 0⟩, 1, .lambertian ⟨1, 0, 0⟩⟩] ⟨⟨-2, 0, 0⟩, ⟨1, 0, 0⟩⟩ 0
          ((100 : ℚ) : WithTop ℚ)).map (fun r => r.t)) ∧
      (sphereRec ⟨⟨0, 0, 0⟩, 1, .lambertian ⟨1, 0, 0⟩⟩
          ⟨⟨-2, 0, 0⟩, ⟨1, 0, 0⟩⟩ 1).point =
        Ray.at ⟨⟨-2, 0, 0⟩, ⟨1, 0, 0⟩⟩
          (sphereRec ⟨⟨0, 0, 0⟩, 1, .lambertian ⟨1, 0, 0⟩⟩
            ⟨⟨-2, 0, 0⟩, ⟨1, 0, 0⟩⟩ 1).t ∧
      (sphereRec ⟨⟨0, 0, 0⟩, 1, .lambertian ⟨1, 0, 0⟩⟩
          ⟨⟨-2, 0, 0⟩, ⟨1, 0, 0⟩⟩ 1).t ≤
        (sphereRec ⟨⟨10, 0, 0⟩, 1, .metal ⟨0, 1, 0⟩ 0⟩
          ⟨⟨-2, 0, 0⟩, ⟨1, 0, 0⟩⟩ 11).t := by
  have h := c9_list_hit_permutation ratSqrt
    [⟨⟨0, 0, 0⟩, 1, .lambertian ⟨1, 0, 0⟩⟩,
      ⟨⟨10, 0, 0⟩, 1, .metal ⟨0, 1, 0⟩ 0⟩]
    [⟨⟨10, 0, 0⟩, 1, .metal ⟨0, 1, 0⟩ 0⟩,
      ⟨⟨0, 0, 0⟩, 1, .lambertian ⟨1, 0, 0⟩⟩]
    ⟨⟨-2, 0, 0⟩, ⟨1, 0, 0⟩⟩ 0 ((100 : ℚ) : WithTop ℚ)
    (by with_unfolding_all decide) ratSqrt_nonneg
    (List.Perm.swap (⟨⟨10, 0, 0⟩, 1, .metal ⟨0, 1, 0⟩ 0⟩ : Sphere)
      (⟨⟨0, 0, 0⟩, 1, .lambertian ⟨1, 0, 0⟩⟩ : Sphere) [])
  refine ⟨h.1, ?_, ?_⟩
  · exact (h.2.1 (sphereRec ⟨⟨0, 0, 0⟩, 1, .lambertian ⟨1, 0, 0⟩⟩
      ⟨⟨-2, 0, 0⟩, ⟨1, 0, 0⟩⟩ 1) (by with_unfolding_all decide)).2.2
  · exact (h.2.1 (sphereRec ⟨⟨0, 0, 0⟩, 1, .lambertian ⟨1, 0, 0⟩⟩
        ⟨⟨-2, 0, 0⟩, ⟨1, 0, 0⟩⟩ 1) (by with_unfolding_all decide)).2.1
      ⟨⟨10, 0, 0⟩, 1, .metal ⟨0, 1, 0⟩ 0⟩ (by with_unfolding_all decide)
      (sphereRec ⟨⟨10, 0, 0⟩, 1, .metal ⟨0, 1, 0⟩ 0⟩
        ⟨⟨-2, 0, 0⟩, ⟨1, 0, 0⟩⟩ 11) (by with_unfolding_all decide)
